import Mathlib

/-!
Shallow embedding of the `ucpack` codec (framing, CRC8, serde-style
serializer/deserializer, slice cursor) and proofs about its specification.

Bytes are modelled as `Nat` with explicit `% 256` where the Rust code casts;
byte slices become `List Nat`.
-/

set_option maxRecDepth 4000

namespace UcPackModel

/-- Error taxonomy of the crate (`UcPackError` in `lib.rs`). -/
inductive UcPackError where
  | BadVariant
  | Eof
  | NoSupport (name : String)
  | TooLong
  | BufferFull
  | SerError
  | DeError
  | InvalidData
  | WrongCrc
  | WrongIndex
deriving DecidableEq, Repr

theorem exceptBind_ok {α β : Type} (a : α) (f : α → Except UcPackError β) :
    (do let x ← Except.ok a; f x) = f a := rfl

theorem exceptBind_error {α β : Type} (e : UcPackError) (f : α → Except UcPackError β) :
    (do let x ← (Except.error e : Except UcPackError α); f x)
      = (Except.error e : Except UcPackError β) := rfl

/-- Codec configuration (`UcPack` struct): start and end markers. -/
structure UcPack where
  start_index : Nat
  end_index : Nat
deriving DecidableEq, Repr

/-- `UcPack::new`. -/
def UcPack.new (start_index end_index : Nat) : UcPack :=
  { start_index := start_index, end_index := end_index }

/-- `UcPack::default()`: markers `b'A'` (65) and `b'#'` (35). -/
def ucpackDefault : UcPack := UcPack.new 65 35

mutual
/-- Shapes of values the serde traversal can present to the codec, reduced to
the closed set the protocol handles (spec §9): primitives, tuples, structs
(named fields, encoded identically), and tagged-union variants.  For enums we
record the enum's name (passed by serde as the `name` argument) and the list
of variant shapes indexed by discriminant. -/
inductive Shape where
  | sBool
  | sU8
  | sI8
  | sU16
  | sI16
  | sF32
  | sTuple (fields : List Shape)
  | sStruct (fields : List Shape)
  | sEnum (name : String) (variants : List VariantShape)

/-- The form of one enum variant: unit, newtype, tuple or struct variant. -/
inductive VariantShape where
  | unit
  | newtype (s : Shape)
  | tupleV (fields : List Shape)
  | structV (fields : List Shape)
end

/-- Values of the shapes above.  Machine integers are `Nat`/`Int`; `f32` is
carried as its 32-bit IEEE-754 pattern, which is exactly what the codec moves
(`to_le_bytes`/`from_le_bytes`); variants carry the enum name and the
discriminant. -/
inductive Value where
  | vBool (b : Bool)
  | vU8 (n : Nat)
  | vI8 (n : Int)
  | vU16 (n : Nat)
  | vI16 (n : Int)
  | vF32 (bits : Nat)
  | vTuple (fields : List Value)
  | vStruct (fields : List Value)
  | vUnitVariant (name : String) (idx : Nat)
  | vNewtypeVariant (name : String) (idx : Nat) (payload : Value)
  | vTupleVariant (name : String) (idx : Nat) (fields : List Value)
  | vStructVariant (name : String) (idx : Nat) (fields : List Value)

/-- Little-endian bytes of a 16-bit value (`u16::to_le_bytes`). -/
def leBytes2 (n : Nat) : List Nat := [n % 256, n / 256 % 256]

/-- Little-endian bytes of a 32-bit value (`f32::to_le_bytes` of the bit
pattern). -/
def leBytes4 (n : Nat) : List Nat :=
  [n % 256, n / 256 % 256, n / 65536 % 256, n / 16777216 % 256]

mutual
/-- The serializer of `ser.rs`, per value shape, writing into a growable
buffer (the `Vec<u8>` `WriteBuffer`, whose `push_slice` never fails): the
emitted payload bytes, or the error the corresponding `serialize_*` method
returns.  `bool` goes through `serialize_u8(v as u8)`; `i8`/`i16` are cast to
the unsigned type of the same width and written little-endian; tuples and
structs write their fields in order with no prefix; `serialize_unit_variant`
is `NoSupport(name)` (the enum's name); newtype/tuple/struct variants check
`u8::try_from(idx)` (else `BadVariant`), write the discriminant byte, then the
payload. -/
def serValue : Value → Except UcPackError (List Nat)
  | .vBool b => .ok [if b then 1 else 0]
  | .vU8 n => .ok [n % 256]
  | .vI8 n => .ok [(n % 256).toNat]
  | .vU16 n => .ok (leBytes2 n)
  | .vI16 n => .ok (leBytes2 (n % 65536).toNat)
  | .vF32 bits => .ok (leBytes4 bits)
  | .vTuple fields => serList fields
  | .vStruct fields => serList fields
  | .vUnitVariant name _ => .error (.NoSupport name)
  | .vNewtypeVariant _ idx payload =>
    if 256 ≤ idx then .error .BadVariant
    else do
      let inner ← serValue payload
      .ok (idx :: inner)
  | .vTupleVariant _ idx fields =>
    if 256 ≤ idx then .error .BadVariant
    else do
      let inner ← serList fields
      .ok (idx :: inner)
  | .vStructVariant _ idx fields =>
    if 256 ≤ idx then .error .BadVariant
    else do
      let inner ← serList fields
      .ok (idx :: inner)

/-- Fields of a tuple/struct serialized in declared order (the
`SerializeTuple`/`SerializeStruct` impls: each `serialize_field` appends the
field's bytes, `end` adds nothing). -/
def serList : List Value → Except UcPackError (List Nat)
  | [] => .ok []
  | v :: vs => do
    let b ← serValue v
    let bs ← serList vs
    .ok (b ++ bs)
end

/-- One step of the CRC8 fold in `crc8` (`lib.rs`): the closure body of the
`fold`, fed a pair `(byte, j)`. -/
def crc8Step (crc : Nat) (p : Nat × Nat) : Nat :=
  let sum := (crc ^^^ (p.1 >>> p.2)) &&& 0x01
  let crc := crc >>> 1
  crc ^^^ (if sum ≠ 0 then 0x8C else 0)

/-- `crc8` from `lib.rs`: flat-maps each byte to the pairs `(byte, j)` for
`j = 0..8` and folds `crc8Step` starting from 0. -/
def crc8 (input : List Nat) : Nat :=
  (input.flatMap (fun byte => (List.range 8).map (fun j => (byte, j)))).foldl crc8Step 0

/-- Modelled from the spec's CRC description (§4.4): for each input byte, for
each of its 8 bits from least-significant to most-significant, compute
`sum = (crc XOR (byte >> bit)) & 1`; shift `crc` right by 1; if `sum` is
nonzero, XOR in `0x8C`. Accumulator starts at 0. -/
def crc8_spec (input : List Nat) : Nat :=
  input.foldl
    (fun crc byte =>
      (List.range 8).foldl
        (fun crc bit =>
          let sum := (crc ^^^ (byte >>> bit)) &&& 1
          let shifted := crc >>> 1
          if sum ≠ 0 then shifted ^^^ 0x8C else shifted)
        crc)
    0

/-- Processing of one whole byte by the CRC8 fold (the 8 bit-steps). -/
def crc8Byte (crc byte : Nat) : Nat :=
  ((List.range 8).map (fun j => (byte, j))).foldl crc8Step crc

theorem crc8_flatMap_eq_foldl (input : List Nat) (a : Nat) :
    ((input.flatMap (fun byte => (List.range 8).map (fun j => (byte, j)))).foldl crc8Step a)
      = input.foldl crc8Byte a := by
  induction input generalizing a with
  | nil => rfl
  | cons b bs ih =>
    simp only [List.flatMap_cons, List.foldl_append, List.foldl_cons]
    exact ih _

theorem crc8_eq_foldl_crc8Byte (input : List Nat) :
    crc8 input = input.foldl crc8Byte 0 :=
  crc8_flatMap_eq_foldl input 0

theorem crc8Byte_eq_spec_inner (crc byte : Nat) :
    crc8Byte crc byte
      = (List.range 8).foldl
          (fun c bit =>
            let sum := (c ^^^ (byte >>> bit)) &&& 1
            let shifted := c >>> 1
            if sum ≠ 0 then shifted ^^^ 0x8C else shifted)
          crc := by
  rw [crc8Byte, List.foldl_map]
  apply List.foldl_ext
  intro a b _
  simp only [crc8Step]
  split <;> simp

/-- The CRC8 bit update seen as a function of the state and the shifted
byte (`crc8Step c (b, j) = bitStep c (b >>> j)` definitionally). -/
def bitStep (c x : Nat) : Nat :=
  (c >>> 1) ^^^ (if (c ^^^ x) &&& 1 ≠ 0 then 0x8C else 0)

theorem crc8Step_eq_bitStep (c b j : Nat) : crc8Step c (b, j) = bitStep c (b >>> j) := rfl

theorem shiftRight_xor (a b n : Nat) : (a ^^^ b) >>> n = (a >>> n) ^^^ (b >>> n) := by
  apply Nat.eq_of_testBit_eq
  intro i
  simp [Nat.testBit_shiftRight, Nat.testBit_xor]

theorem xor_left_comm (a b c : Nat) : a ^^^ (b ^^^ c) = b ^^^ (a ^^^ c) := by
  rw [← Nat.xor_assoc, Nat.xor_comm a b, Nat.xor_assoc]

theorem bitStep_linear (c c' x x' : Nat) :
    bitStep (c ^^^ c') (x ^^^ x') = bitStep c x ^^^ bitStep c' x' := by
  unfold bitStep
  rw [shiftRight_xor]
  have hpar : ((c ^^^ c') ^^^ (x ^^^ x')) &&& 1
      = ((c ^^^ x) &&& 1) ^^^ ((c' ^^^ x') &&& 1) := by
    rw [← Nat.and_xor_distrib_right]
    congr 1
    rw [Nat.xor_assoc, Nat.xor_assoc]
    congr 1
    rw [← Nat.xor_assoc, ← Nat.xor_assoc, Nat.xor_comm c' x]
  have h1 : (c ^^^ x) &&& 1 = 0 ∨ (c ^^^ x) &&& 1 = 1 := by
    rw [Nat.and_one_is_mod]
    omega
  have h2 : (c' ^^^ x') &&& 1 = 0 ∨ (c' ^^^ x') &&& 1 = 1 := by
    rw [Nat.and_one_is_mod]
    omega
  rcases h1 with h1 | h1 <;> rcases h2 with h2 | h2 <;>
    simp only [hpar, h1, h2] <;>
    norm_num <;>
    simp [Nat.xor_assoc, Nat.xor_comm, xor_left_comm]

theorem foldl_crc8Step_linear (js : List Nat) (s s' b b' : Nat) :
    ((js.map (fun j => (b ^^^ b', j))).foldl crc8Step (s ^^^ s'))
      = ((js.map (fun j => (b, j))).foldl crc8Step s)
          ^^^ ((js.map (fun j => (b', j))).foldl crc8Step s') := by
  induction js generalizing s s' with
  | nil => rfl
  | cons j js ih =>
    simp only [List.map_cons, List.foldl_cons, crc8Step_eq_bitStep]
    rw [shiftRight_xor, bitStep_linear]
    exact ih _ _

/-- The CRC8 byte update is XOR-linear in the pair (state, byte). -/
theorem crc8Byte_linear (s s' b b' : Nat) :
    crc8Byte (s ^^^ s') (b ^^^ b') = crc8Byte s b ^^^ crc8Byte s' b' :=
  foldl_crc8Step_linear (List.range 8) s s' b b'

theorem crc8Byte_decompose (s b : Nat) :
    crc8Byte s b = crc8Byte s 0 ^^^ crc8Byte 0 b := by
  have h := crc8Byte_linear s 0 0 b
  rwa [Nat.xor_zero, Nat.zero_xor] at h

theorem crc8Byte_state_nodup :
    ((List.range 256).map (fun s => crc8Byte s 0)).Nodup := by decide

theorem crc8Byte_byte_nodup :
    ((List.range 256).map (fun b => crc8Byte 0 b)).Nodup := by decide

theorem crc8Byte_state_inj {s t : Nat} (b : Nat) (hs : s < 256) (ht : t < 256)
    (h : crc8Byte s b = crc8Byte t b) : s = t := by
  rw [crc8Byte_decompose s b, crc8Byte_decompose t b, Nat.xor_left_inj] at h
  have hinj := (List.nodup_map_iff_inj_on (List.nodup_range 256)).mp crc8Byte_state_nodup
  exact hinj s (List.mem_range.mpr hs) t (List.mem_range.mpr ht) h

theorem crc8Byte_byte_inj (s : Nat) {b b' : Nat} (hb : b < 256) (hb' : b' < 256)
    (h : crc8Byte s b = crc8Byte s b') : b = b' := by
  rw [crc8Byte_decompose s b, crc8Byte_decompose s b', Nat.xor_right_inj] at h
  have hinj := (List.nodup_map_iff_inj_on (List.nodup_range 256)).mp crc8Byte_byte_nodup
  exact hinj b (List.mem_range.mpr hb) b' (List.mem_range.mpr hb') h

theorem bitStep_lt (c x : Nat) (hc : c < 256) : bitStep c x < 256 := by
  unfold bitStep
  have h1 : c >>> 1 < 2 ^ 8 := by
    rw [Nat.shiftRight_eq_div_pow]
    omega
  have h2 : (if (c ^^^ x) &&& 1 ≠ 0 then 0x8C else 0) < 2 ^ 8 := by
    split <;> norm_num
  have := Nat.xor_lt_two_pow h1 h2
  omega

theorem foldl_crc8Step_lt (js : List Nat) (b : Nat) :
    ∀ s, s < 256 → ((js.map (fun j => (b, j))).foldl crc8Step s) < 256 := by
  induction js with
  | nil => intro s hs; exact hs
  | cons j js ih =>
    intro s hs
    simp only [List.map_cons, List.foldl_cons, crc8Step_eq_bitStep]
    exact ih _ (bitStep_lt s (b >>> j) hs)

theorem crc8Byte_lt (s b : Nat) (hs : s < 256) : crc8Byte s b < 256 :=
  foldl_crc8Step_lt (List.range 8) b s hs

theorem foldl_crc8Byte_lt (l : List Nat) : ∀ s, s < 256 → l.foldl crc8Byte s < 256 := by
  induction l with
  | nil => intro s hs; exact hs
  | cons x xs ih =>
    intro s hs
    simp only [List.foldl_cons]
    exact ih _ (crc8Byte_lt s x hs)

theorem foldl_crc8Byte_inj (l : List Nat) :
    ∀ s t, s < 256 → t < 256 → l.foldl crc8Byte s = l.foldl crc8Byte t → s = t := by
  induction l with
  | nil => intro s t _ _ h; exact h
  | cons x xs ih =>
    intro s t hs ht h
    simp only [List.foldl_cons] at h
    have := ih _ _ (crc8Byte_lt s x hs) (crc8Byte_lt t x ht) h
    exact crc8Byte_state_inj x hs ht this

/-- Changing a single byte of the input (to a different byte value) always
changes the CRC8 checksum. -/
theorem crc8_ne_of_single_change (pre post : List Nat) (b v : Nat)
    (hb : b < 256) (hv : v < 256) (hne : b ≠ v) :
    crc8 (pre ++ b :: post) ≠ crc8 (pre ++ v :: post) := by
  rw [crc8_eq_foldl_crc8Byte, crc8_eq_foldl_crc8Byte, List.foldl_append, List.foldl_append,
    List.foldl_cons, List.foldl_cons]
  intro h
  have hs : pre.foldl crc8Byte 0 < 256 := foldl_crc8Byte_lt pre 0 (by norm_num)
  have h2 := foldl_crc8Byte_inj post _ _
    (crc8Byte_lt _ _ hs) (crc8Byte_lt _ _ hs) h
  exact hne (crc8Byte_byte_inj _ hb hv h2)

/-- `UcPack::serialize_vec`: the buffer starts as `[start_index, 0]`, the
payload is serialized after it, the length byte is patched with
`u8::try_from(data_end - 2)` (failing with `TooLong` past 255), then the end
marker and the CRC8 of the payload region `buffer[2..data_end]` are pushed. -/
def serialize_vec (p : UcPack) (v : Value) : Except UcPackError (List Nat) := do
  let payload ← serValue v
  if payload.length ≤ 255 then
    .ok (p.start_index :: payload.length :: (payload ++ [p.end_index, crc8 payload]))
  else
    .error .TooLong

/-- `is_complete_message` (`lib.rs`): read the length byte at position 1
(`None` if absent) and return the prefix of `length + 4` bytes (`None` if the
buffer is shorter). -/
def is_complete_message (buffer : List Nat) : Option (List Nat) := do
  let length ← buffer.get? 1
  if length + 4 ≤ buffer.length then some (buffer.take (length + 4)) else none

/-- `ReadBuffer::read_n` as seen through a cursor over the still-unread part
of a slice: `n` bytes are taken and the rest returned, or `Eof` when fewer
than `n` remain (in which case the cursor is unchanged). -/
def readN (n : Nat) (input : List Nat) : Except UcPackError (List Nat × List Nat) :=
  if n ≤ input.length then .ok (input.take n, input.drop n) else .error .Eof

/-- `ReadBuffer::read_u8`: `read_n::<1>`. -/
def readU8 (input : List Nat) : Except UcPackError (Nat × List Nat) :=
  match input with
  | [] => .error .Eof
  | b :: rest => .ok (b, rest)

/-- Lookup of the variant shape selected by a discriminant (the
discriminant-to-variant mapping done by the derived `Deserialize`
implementation the codec hands the discriminant byte to). -/
def variantAt : List VariantShape → Nat → Option VariantShape
  | [], _ => none
  | v :: _, 0 => some v
  | _ :: vs, n + 1 => variantAt vs n

theorem sizeOf_variantAt {vs : List VariantShape} {d : Nat} {v : VariantShape}
    (h : variantAt vs d = some v) : sizeOf v < sizeOf vs := by
  induction vs generalizing d with
  | nil => simp [variantAt] at h
  | cons w ws ih =>
    cases d with
    | zero =>
      simp only [variantAt, Option.some.injEq] at h
      subst h
      simp
      omega
    | succ d =>
      have := ih h
      simp
      omega

mutual
/-- The deserializer of `de.rs`, per requested shape, consuming bytes from
the front of the input (a cursor over the payload slice): `deserialize_bool`
maps byte 0/1 and rejects others with `InvalidData`; `deserialize_i8` reads a
byte and casts `as i8`; 16-bit reads use `u16::from_le_bytes` (then `as i16`);
`deserialize_f32` reads 4 little-endian bytes; tuples and structs read their
fields in order through `SeriesAccess` (exactly `len` elements); enums read
one discriminant byte in `variant_seed`, the derived code maps it to a variant
(an out-of-range discriminant is a serde error, surfacing as `DeError`), then
`unit_variant` consumes nothing, `newtype_variant_seed` decodes one value, and
`tuple_variant`/`struct_variant` decode the variant's fields as a tuple. -/
def deValue : Shape → List Nat → Except UcPackError (Value × List Nat)
  | .sBool, input => do
    let (b, rest) ← readU8 input
    match b with
    | 0 => .ok (.vBool false, rest)
    | 1 => .ok (.vBool true, rest)
    | _ => .error .InvalidData
  | .sU8, input => do
    let (b, rest) ← readU8 input
    .ok (.vU8 b, rest)
  | .sI8, input => do
    let (b, rest) ← readU8 input
    .ok (.vI8 (if b < 128 then (b : Int) else (b : Int) - 256), rest)
  | .sU16, input => do
    let (b0, rest) ← readU8 input
    let (b1, rest) ← readU8 rest
    .ok (.vU16 (b0 + 256 * b1), rest)
  | .sI16, input => do
    let (b0, rest) ← readU8 input
    let (b1, rest) ← readU8 rest
    let u := b0 + 256 * b1
    .ok (.vI16 (if u < 32768 then (u : Int) else (u : Int) - 65536), rest)
  | .sF32, input => do
    let (b0, rest) ← readU8 input
    let (b1, rest) ← readU8 rest
    let (b2, rest) ← readU8 rest
    let (b3, rest) ← readU8 rest
    .ok (.vF32 (b0 + 256 * b1 + 65536 * b2 + 16777216 * b3), rest)
  | .sTuple fields, input => do
    let (vs, rest) ← deList fields input
    .ok (.vTuple vs, rest)
  | .sStruct fields, input => do
    let (vs, rest) ← deList fields input
    .ok (.vStruct vs, rest)
  | .sEnum name variants, input => do
    let (d, rest) ← readU8 input
    match h : variantAt variants d with
    | none => .error .DeError
    | some .unit => .ok (.vUnitVariant name d, rest)
    | some (.newtype s) => do
      let (v, r) ← deValue s rest
      .ok (.vNewtypeVariant name d v, r)
    | some (.tupleV fields) => do
      let (vs, r) ← deList fields rest
      .ok (.vTupleVariant name d vs, r)
    | some (.structV fields) => do
      let (vs, r) ← deList fields rest
      .ok (.vStructVariant name d vs, r)
termination_by s _ => sizeOf s
decreasing_by
  all_goals simp_wf
  all_goals first
    | (have hsv := sizeOf_variantAt h
       simp at hsv ⊢
       omega)
    | omega

/-- `SeriesAccess`: decode exactly the given field shapes in order. -/
def deList : List Shape → List Nat → Except UcPackError (List Value × List Nat)
  | [], input => .ok ([], input)
  | s :: ss, input => do
    let (v, rest) ← deValue s input
    let (vs, rest) ← deList ss rest
    .ok (v :: vs, rest)
termination_by ss _ => sizeOf ss
decreasing_by
  all_goals simp_wf
  all_goals omega
end

/-- `UcPack::deserialize_slice` for a type of shape `s`: probe the buffer with
`is_complete_message`, destructure the packet into
`[index, length, payload.., end_index, crc]`, optionally check the markers
(the `strict` cargo feature; off by default), verify the CRC8 of the payload
against the stored byte, then run the deserializer on the payload (leftover
payload bytes are not checked). -/
def deserialize_slice (strict : Bool) (p : UcPack) (s : Shape) (buffer : List Nat) :
    Except UcPackError Value :=
  match is_complete_message buffer with
  | none => .error .Eof
  | some packet =>
    if packet.length < 4 then .error .Eof
    else
      let index := packet.getD 0 0
      let payload := (packet.drop 2).take (packet.length - 4)
      let end_index := packet.getD (packet.length - 2) 0
      let crc := packet.getD (packet.length - 1) 0
      if strict ∧ (index ≠ p.start_index ∨ end_index ≠ p.end_index) then
        .error .WrongIndex
      else if crc8 payload ≠ crc then
        .error .WrongCrc
      else
        match deValue s payload with
        | .ok (v, _) => .ok v
        | .error e => .error e

mutual
/-- A value is a faithful model of a Rust value of the type described by a
shape: the structure matches and every machine integer is within the range of
its Rust type (`u8`, `i8`, `u16`, `i16`, 32-bit float pattern, `u8`-sized
enum payloads are not constrained here — only the numeric fields are). -/
def hasShape : Value → Shape → Bool
  | .vBool _, .sBool => true
  | .vU8 n, .sU8 => decide (n < 256)
  | .vI8 n, .sI8 => decide (-128 ≤ n ∧ n < 128)
  | .vU16 n, .sU16 => decide (n < 65536)
  | .vI16 n, .sI16 => decide (-32768 ≤ n ∧ n < 32768)
  | .vF32 b, .sF32 => decide (b < 4294967296)
  | .vTuple vs, .sTuple ss => hasShapeList vs ss
  | .vStruct vs, .sStruct ss => hasShapeList vs ss
  | .vUnitVariant n d, .sEnum n' vars =>
    n == n' &&
      match variantAt vars d with
      | some .unit => true
      | _ => false
  | .vNewtypeVariant n d p, .sEnum n' vars =>
    n == n' &&
      match variantAt vars d with
      | some (.newtype s) => hasShape p s
      | _ => false
  | .vTupleVariant n d vs, .sEnum n' vars =>
    n == n' &&
      match variantAt vars d with
      | some (.tupleV ss) => hasShapeList vs ss
      | _ => false
  | .vStructVariant n d vs, .sEnum n' vars =>
    n == n' &&
      match variantAt vars d with
      | some (.structV ss) => hasShapeList vs ss
      | _ => false
  | _, _ => false

/-- Pointwise shape conformance of a field list. -/
def hasShapeList : List Value → List Shape → Bool
  | [], [] => true
  | v :: vs, s :: ss => hasShape v s && hasShapeList vs ss
  | _, _ => false
end

mutual
/-- Serialize-then-deserialize identity at the payload level: decoding at the
value's shape consumes exactly the serialized bytes and rebuilds the value,
leaving any trailing bytes untouched. -/
theorem ser_de_id (v : Value) (s : Shape) (bytes rest : List Nat)
    (hs : hasShape v s = true) (hser : serValue v = .ok bytes) :
    deValue s (bytes ++ rest) = .ok (v, rest) := by
  cases v with
  | vBool b =>
    cases s <;> simp [hasShape] at hs
    simp only [serValue, Except.ok.injEq] at hser
    subst hser
    cases b <;> simp [deValue, readU8, exceptBind_ok]
  | vU8 n =>
    cases s <;> simp [hasShape] at hs
    simp only [serValue, Except.ok.injEq] at hser
    subst hser
    simp [deValue, readU8, Nat.mod_eq_of_lt hs, exceptBind_ok]
  | vI8 n =>
    cases s <;> simp [hasShape] at hs
    simp only [serValue, Except.ok.injEq] at hser
    subst hser
    have h0 : (0 : Int) ≤ n % 256 := Int.emod_nonneg n (by norm_num)
    have hb : ((n % 256).toNat : Int) = n % 256 := Int.toNat_of_nonneg h0
    simp only [deValue, readU8, List.cons_append, Except.ok.injEq, Prod.mk.injEq,
      Value.vI8.injEq, exceptBind_ok, exceptBind_error]
    refine ⟨?_, rfl⟩
    split <;> omega
  | vU16 n =>
    cases s <;> simp [hasShape] at hs
    simp only [serValue, Except.ok.injEq] at hser
    subst hser
    simp only [leBytes2, deValue, readU8, List.cons_append, Except.ok.injEq,
      Prod.mk.injEq, Value.vU16.injEq, exceptBind_ok, exceptBind_error]
    refine ⟨?_, rfl⟩
    omega
  | vI16 n =>
    cases s <;> simp [hasShape] at hs
    simp only [serValue, Except.ok.injEq] at hser
    subst hser
    have h0 : (0 : Int) ≤ n % 65536 := Int.emod_nonneg n (by norm_num)
    have hb : ((n % 65536).toNat : Int) = n % 65536 := Int.toNat_of_nonneg h0
    simp only [leBytes2, deValue, readU8, List.cons_append, Except.ok.injEq,
      Prod.mk.injEq, Value.vI16.injEq, exceptBind_ok, exceptBind_error]
    refine ⟨?_, rfl⟩
    split <;> omega
  | vF32 bits =>
    cases s <;> simp [hasShape] at hs
    simp only [serValue, Except.ok.injEq] at hser
    subst hser
    simp only [leBytes4, deValue, readU8, List.cons_append, Except.ok.injEq,
      Prod.mk.injEq, Value.vF32.injEq, exceptBind_ok, exceptBind_error]
    refine ⟨?_, rfl⟩
    omega
  | vTuple fields =>
    cases s <;> simp [hasShape] at hs
    case sTuple ss =>
    simp only [serValue] at hser
    have hrec := ser_de_id_list fields ss bytes rest hs hser
    simp [deValue, hrec, exceptBind_ok, exceptBind_error]
  | vStruct fields =>
    cases s <;> simp [hasShape] at hs
    case sStruct ss =>
    simp only [serValue] at hser
    have hrec := ser_de_id_list fields ss bytes rest hs hser
    simp [deValue, hrec, exceptBind_ok, exceptBind_error]
  | vUnitVariant name d =>
    simp [serValue] at hser
  | vNewtypeVariant name d p =>
    cases s <;> simp [hasShape] at hs
    case sEnum name' vars =>
    obtain ⟨rfl, hv⟩ := hs
    simp only [serValue] at hser
    split at hser
    · exact absurd hser (by simp)
    case isFalse hd =>
    cases hp : serValue p with
    | error e => rw [hp] at hser; simp [exceptBind_ok, exceptBind_error] at hser
    | ok inner =>
      rw [hp] at hser
      simp only [exceptBind_ok, exceptBind_error, Except.ok.injEq] at hser
      subst hser
      rcases hvar : variantAt vars d with _ | vsh
      · rw [hvar] at hv; simp at hv
      · cases vsh with
        | unit => rw [hvar] at hv; simp at hv
        | newtype s' =>
          rw [hvar] at hv
          simp only [] at hv
          have hrec := ser_de_id p s' inner rest hv hp
          simp only [deValue, List.cons_append, readU8, exceptBind_ok]
          split
          · rename_i heq; rw [hvar] at heq; exact absurd heq (by simp)
          · rename_i heq; rw [hvar] at heq; exact absurd heq (by simp)
          · rename_i s heq; rw [hvar] at heq
            injection heq with h2
            injection h2 with h3
            subst h3
            simp [hrec, exceptBind_ok]
          · rename_i fs heq; rw [hvar] at heq; exact absurd heq (by simp)
          · rename_i fs heq; rw [hvar] at heq; exact absurd heq (by simp)
        | tupleV ss => rw [hvar] at hv; simp at hv
        | structV ss => rw [hvar] at hv; simp at hv
  | vTupleVariant name d fields =>
    cases s <;> simp [hasShape] at hs
    case sEnum name' vars =>
    obtain ⟨rfl, hv⟩ := hs
    simp only [serValue] at hser
    split at hser
    · exact absurd hser (by simp)
    case isFalse hd =>
    cases hp : serList fields with
    | error e => rw [hp] at hser; simp [exceptBind_ok, exceptBind_error] at hser
    | ok inner =>
      rw [hp] at hser
      simp only [exceptBind_ok, exceptBind_error, Except.ok.injEq] at hser
      subst hser
      rcases hvar : variantAt vars d with _ | vsh
      · rw [hvar] at hv; simp at hv
      · cases vsh with
        | unit => rw [hvar] at hv; simp at hv
        | newtype s' => rw [hvar] at hv; simp at hv
        | tupleV ss =>
          rw [hvar] at hv
          simp only [] at hv
          have hrec := ser_de_id_list fields ss inner rest hv hp
          simp only [deValue, List.cons_append, readU8, exceptBind_ok]
          split
          · rename_i heq; rw [hvar] at heq; exact absurd heq (by simp)
          · rename_i heq; rw [hvar] at heq; exact absurd heq (by simp)
          · rename_i s heq; rw [hvar] at heq; exact absurd heq (by simp)
          · rename_i fs heq; rw [hvar] at heq
            injection heq with h2
            injection h2 with h3
            subst h3
            simp [hrec, exceptBind_ok]
          · rename_i fs heq; rw [hvar] at heq; exact absurd heq (by simp)
        | structV ss => rw [hvar] at hv; simp at hv
  | vStructVariant name d fields =>
    cases s <;> simp [hasShape] at hs
    case sEnum name' vars =>
    obtain ⟨rfl, hv⟩ := hs
    simp only [serValue] at hser
    split at hser
    · exact absurd hser (by simp)
    case isFalse hd =>
    cases hp : serList fields with
    | error e => rw [hp] at hser; simp [exceptBind_ok, exceptBind_error] at hser
    | ok inner =>
      rw [hp] at hser
      simp only [exceptBind_ok, exceptBind_error, Except.ok.injEq] at hser
      subst hser
      rcases hvar : variantAt vars d with _ | vsh
      · rw [hvar] at hv; simp at hv
      · cases vsh with
        | unit => rw [hvar] at hv; simp at hv
        | newtype s' => rw [hvar] at hv; simp at hv
        | tupleV ss => rw [hvar] at hv; simp at hv
        | structV ss =>
          rw [hvar] at hv
          simp only [] at hv
          have hrec := ser_de_id_list fields ss inner rest hv hp
          simp only [deValue, List.cons_append, readU8, exceptBind_ok]
          split
          · rename_i heq; rw [hvar] at heq; exact absurd heq (by simp)
          · rename_i heq; rw [hvar] at heq; exact absurd heq (by simp)
          · rename_i s heq; rw [hvar] at heq; exact absurd heq (by simp)
          · rename_i fs heq; rw [hvar] at heq; exact absurd heq (by simp)
          · rename_i fs heq; rw [hvar] at heq
            injection heq with h2
            injection h2 with h3
            subst h3
            simp [hrec, exceptBind_ok]
termination_by sizeOf v

/-- Serialize-then-deserialize identity for a field list. -/
theorem ser_de_id_list (vs : List Value) (ss : List Shape) (bytes rest : List Nat)
    (hs : hasShapeList vs ss = true) (hser : serList vs = .ok bytes) :
    deList ss (bytes ++ rest) = .ok (vs, rest) := by
  cases vs with
  | nil =>
    cases ss <;> simp [hasShapeList] at hs
    simp only [serList, Except.ok.injEq] at hser
    subst hser
    simp [deList]
  | cons v vt =>
    cases ss with
    | nil => simp [hasShapeList] at hs
    | cons s st =>
      simp only [hasShapeList, Bool.and_eq_true] at hs
      obtain ⟨hv, ht⟩ := hs
      simp only [serList] at hser
      cases hp : serValue v with
      | error e => rw [hp] at hser; simp [exceptBind_ok, exceptBind_error] at hser
      | ok b =>
        rw [hp] at hser
        cases hq : serList vt with
        | error e => rw [hq] at hser; simp [exceptBind_ok, exceptBind_error] at hser
        | ok bs =>
          rw [hq] at hser
          simp only [exceptBind_ok, exceptBind_error, Except.ok.injEq] at hser
          subst hser
          have h1 := ser_de_id v s b (bs ++ rest) hv hp
          have h2 := ser_de_id_list vt st bs rest ht hq
          rw [List.append_assoc]
          simp [deList, h1, h2, exceptBind_ok, exceptBind_error]
termination_by sizeOf vs
end

theorem optionBind_some {α β : Type} (a : α) (f : α → Option β) :
    (do let x ← some a; f x) = f a := rfl

theorem is_complete_message_explicit (a L e c : Nat) (payload : List Nat)
    (hL : payload.length = L) :
    is_complete_message (a :: L :: (payload ++ [e, c]))
      = some (a :: L :: (payload ++ [e, c])) := by
  have hlen : (a :: L :: (payload ++ [e, c])).length = L + 4 := by
    simp [hL]
  simp only [is_complete_message, List.get?, optionBind_some]
  rw [if_pos (le_of_eq hlen.symm), List.take_of_length_le (le_of_eq hlen)]

/-- Evaluation of `deserialize_slice` (non-strict) on an explicitly framed
buffer: the probe accepts, the destructuring exposes the payload, and the
outcome is decided by the CRC check and then the deserializer. -/
theorem deserialize_frame_eq (pk : UcPack) (s : Shape) (a e c : Nat) (payload : List Nat) :
    deserialize_slice false pk s (a :: payload.length :: (payload ++ [e, c]))
      = if crc8 payload ≠ c then .error .WrongCrc
        else match deValue s payload with
          | .ok (v, _) => .ok v
          | .error e' => .error e' := by
  have hlen : (a :: payload.length :: (payload ++ [e, c])).length = payload.length + 4 := by
    simp
  have hpay : List.take ((a :: payload.length :: (payload ++ [e, c])).length - 4)
      (List.drop 2 (a :: payload.length :: (payload ++ [e, c]))) = payload := by
    rw [hlen]
    simp only [Nat.add_sub_cancel, List.drop_succ_cons, List.drop_zero]
    exact List.take_left payload [e, c]
  have hcrc : (a :: payload.length :: (payload ++ [e, c])).getD
      ((a :: payload.length :: (payload ++ [e, c])).length - 1) 0 = c := by
    rw [hlen]
    have h3 : payload.length + 4 - 1 = payload.length + 3 := by omega
    rw [h3]
    simp only [List.getD_cons_succ]
    rw [List.getD_append_right payload [e, c] 0 (payload.length + 1) (by omega)]
    simp
  rw [deserialize_slice, is_complete_message_explicit a payload.length e c payload rfl]
  simp only [hpay, hcrc]
  rw [if_neg (by rw [hlen]; omega), if_neg (by simp)]

/-- C3: the `crc8` function of the code coincides, on every byte sequence,
with the reference bit-loop definition written from the spec: for each byte
and each bit 0..7, `sum = (crc ^^^ (byte >>> bit)) &&& 1`, shift right,
conditionally XOR `0x8C`, starting from accumulator 0. -/
theorem spec_C3_crc8_matches_reference (input : List Nat) :
    crc8 input = crc8_spec input := by
  rw [crc8_eq_foldl_crc8Byte, crc8_spec]
  apply List.foldl_ext
  intro a b _
  exact crc8Byte_eq_spec_inner a b

/-- C1: round-trip — for every value `v` of a supported shape (`hasShape`),
if `serialize_vec` with the default markers produces a frame, then
`deserialize_slice` (default build: non-strict) at the same shape decodes the
frame back to a value equal to `v`. -/
theorem spec_C1_roundtrip (v : Value) (s : Shape) (f : List Nat)
    (hs : hasShape v s = true) (h : serialize_vec ucpackDefault v = .ok f) :
    deserialize_slice false ucpackDefault s f = .ok v := by
  simp only [serialize_vec] at h
  cases hp : serValue v with
  | error e => rw [hp] at h; simp [exceptBind_error] at h
  | ok payload =>
    rw [hp] at h
    simp only [exceptBind_ok] at h
    split at h
    case isFalse => simp at h
    case isTrue hle =>
    simp only [Except.ok.injEq] at h
    subst h
    rw [deserialize_frame_eq]
    have hde : deValue s payload = .ok (v, []) := by
      have := ser_de_id v s payload [] hs hp
      rwa [List.append_nil] at this
    rw [if_neg (by simp), hde]

/-- C1 witness: the spec's concrete scenario — the record
`{a: u16 = 1, b: u8 = 2, c: f32 = 1.0}` together with the enum value
`Tag2(10)` round-trips through the default codec. -/
theorem spec_C1_roundtrip_witness :
    deserialize_slice false ucpackDefault
        (.sStruct [.sU16, .sU8, .sF32, .sEnum "TestEnum" [.unit, .newtype .sU16]])
        [65, 10, 1, 0, 2, 0, 0, 128, 63, 1, 10, 0, 35, 29]
      = .ok (.vStruct [.vU16 1, .vU8 2, .vF32 1065353216,
          .vNewtypeVariant "TestEnum" 1 (.vU16 10)]) := by
  have h1 : hasShape
      (.vStruct [.vU16 1, .vU8 2, .vF32 1065353216,
        .vNewtypeVariant "TestEnum" 1 (.vU16 10)])
      (.sStruct [.sU16, .sU8, .sF32, .sEnum "TestEnum" [.unit, .newtype .sU16]]) = true := by
    simp [hasShape, hasShapeList, variantAt]
  have h2 : serialize_vec ucpackDefault
      (.vStruct [.vU16 1, .vU8 2, .vF32 1065353216,
        .vNewtypeVariant "TestEnum" 1 (.vU16 10)])
      = .ok [65, 10, 1, 0, 2, 0, 0, 128, 63, 1, 10, 0, 35, 29] := by
    simp [serialize_vec, serValue, serList, leBytes2, leBytes4,
      exceptBind_ok, exceptBind_error]
    exact ⟨rfl, rfl, rfl⟩
  exact spec_C1_roundtrip _ _ _ h1 h2

/-- C4: every frame produced by `serialize_vec` has the documented layout:
total length is the length byte plus 4, byte 0 is the start marker, byte 1 is
the payload byte count, the next-to-last byte is the end marker, and the last
byte is the CRC8 of exactly the payload slice `f[2 .. 2 + f[1]]`. -/
theorem spec_C4_frame_layout (p : UcPack) (v : Value) (f : List Nat)
    (h : serialize_vec p v = .ok f) :
    f.length = f.getD 1 0 + 4 ∧
    f.getD 0 0 = p.start_index ∧
    (∃ payload, serValue v = .ok payload ∧
      payload = (f.drop 2).take (f.getD 1 0) ∧ payload.length = f.getD 1 0) ∧
    f.getD (f.length - 2) 0 = p.end_index ∧
    f.getD (f.length - 1) 0 = crc8 ((f.drop 2).take (f.getD 1 0)) := by
  simp only [serialize_vec] at h
  cases hp : serValue v with
  | error e => rw [hp] at h; simp [exceptBind_error] at h
  | ok payload =>
    rw [hp] at h
    simp only [exceptBind_ok] at h
    split at h
    case isFalse => simp at h
    case isTrue hle =>
    simp only [Except.ok.injEq] at h
    subst h
    have hget1 : (p.start_index :: payload.length :: (payload ++ [p.end_index, crc8 payload])).getD 1 0
        = payload.length := by
      simp [List.getD_cons_succ, List.getD_cons_zero]
    have hlen : (p.start_index :: payload.length :: (payload ++ [p.end_index, crc8 payload])).length
        = payload.length + 4 := by
      simp
    have hdrop : ((p.start_index :: payload.length :: (payload ++ [p.end_index, crc8 payload])).drop 2).take
        payload.length = payload := List.take_left payload _
    refine ⟨?_, rfl, ⟨payload, rfl, ?_, ?_⟩, ?_, ?_⟩
    · rw [hget1, hlen]
    · rw [hget1, hdrop]
    · rw [hget1]
    · rw [hlen]
      show (p.start_index :: payload.length :: (payload ++ [p.end_index, crc8 payload])).getD
        (payload.length + 4 - 2) 0 = p.end_index
      have h2 : payload.length + 4 - 2 = payload.length + 2 := by omega
      rw [h2]
      simp only [List.getD_cons_succ]
      rw [List.getD_append_right payload [p.end_index, crc8 payload] 0 payload.length (le_refl _)]
      simp
    · rw [hlen, hget1, hdrop]
      have h3 : payload.length + 4 - 1 = payload.length + 3 := by omega
      rw [h3]
      simp only [List.getD_cons_succ]
      rw [List.getD_append_right payload [p.end_index, crc8 payload] 0 (payload.length + 1) (by omega)]
      simp

/-- C4 witness: the layout facts hold on the concrete frame of the spec's
first scenario. -/
theorem spec_C4_frame_layout_witness :
    ([65, 7, 1, 0, 2, 0, 0, 128, 63, 35, 110] : List Nat).length
        = ([65, 7, 1, 0, 2, 0, 0, 128, 63, 35, 110] : List Nat).getD 1 0 + 4 ∧
    ([65, 7, 1, 0, 2, 0, 0, 128, 63, 35, 110] : List Nat).getD 0 0 = ucpackDefault.start_index := by
  have h : serialize_vec ucpackDefault (.vStruct [.vU16 1, .vU8 2, .vF32 1065353216])
      = .ok [65, 7, 1, 0, 2, 0, 0, 128, 63, 35, 110] := by
    simp [serialize_vec, serValue, serList, leBytes2, leBytes4,
      exceptBind_ok, exceptBind_error]
    exact ⟨rfl, rfl, rfl⟩
  have hall := spec_C4_frame_layout ucpackDefault _ _ h
  exact ⟨hall.1, hall.2.1⟩

/-- C5: the probe — `is_complete_message` returns `none` when the buffer has
no byte at index 1, returns `none` when the buffer holds fewer than
`buffer[1] + 4` bytes, and otherwise returns the prefix of exactly
`buffer[1] + 4` bytes.  (It is a pure function of the buffer, so repeated
calls on a growing buffer are side-effect-free by construction.) -/
theorem spec_C5_probe (buffer : List Nat) :
    (buffer.length ≤ 1 → is_complete_message buffer = none) ∧
    (∀ len, buffer.get? 1 = some len →
      (buffer.length < len + 4 → is_complete_message buffer = none) ∧
      (len + 4 ≤ buffer.length →
        is_complete_message buffer = some (buffer.take (len + 4)) ∧
        (buffer.take (len + 4)).length = len + 4)) := by
  refine ⟨fun h => ?_, fun len hlen => ⟨fun h => ?_, fun h => ⟨?_, ?_⟩⟩⟩
  · have hn : buffer.get? 1 = none := List.get?_eq_none.mpr h
    rw [is_complete_message, hn]
    rfl
  · simp only [is_complete_message, hlen, optionBind_some]
    rw [if_neg (by omega)]
  · simp only [is_complete_message, hlen, optionBind_some]
    rw [if_pos h]
  · rw [List.length_take]
    omega

/-- C5 witness: on the concrete frame `41 03 01 02 03 23 09`, every proper
prefix is incomplete and the full buffer (with a trailing byte) yields
exactly the 7-byte frame. -/
theorem spec_C5_probe_witness :
    is_complete_message [65] = none ∧
    is_complete_message [65, 3, 1, 2, 3, 35] = none ∧
    is_complete_message [65, 3, 1, 2, 3, 35, 9, 77] = some [65, 3, 1, 2, 3, 35, 9] := by
  refine ⟨(spec_C5_probe [65]).1 (by simp), ?_, ?_⟩
  · exact ((spec_C5_probe [65, 3, 1, 2, 3, 35]).2 3 rfl).1 (by simp)
  · exact (((spec_C5_probe [65, 3, 1, 2, 3, 35, 9, 77]).2 3 rfl).2 (by simp)).1

/-- C7: the payload ceiling — when the serializer emits a payload longer than
255 bytes, `serialize_vec` fails with `TooLong`; when the payload is at most
255 bytes, the length byte conversion succeeds and a frame is returned (no
`TooLong`). -/
theorem spec_C7_payload_ceiling (p : UcPack) (v : Value) (payload : List Nat)
    (h : serValue v = .ok payload) :
    (255 < payload.length → serialize_vec p v = .error .TooLong) ∧
    (payload.length ≤ 255 → serialize_vec p v
        = .ok (p.start_index :: payload.length :: (payload ++ [p.end_index, crc8 payload]))) := by
  constructor
  · intro hgt
    simp only [serialize_vec, h, exceptBind_ok]
    rw [if_neg (by omega)]
  · intro hle
    simp only [serialize_vec, h, exceptBind_ok]
    rw [if_pos hle]

/-- C7 witness: a 256-field struct of `u8`s is rejected with `TooLong`, and a
one-field struct is accepted. -/
theorem spec_C7_payload_ceiling_witness :
    serialize_vec ucpackDefault (.vStruct (List.replicate 256 (.vU8 7)))
      = .error .TooLong ∧
    serialize_vec ucpackDefault (.vStruct [.vU8 7])
      = .ok [65, 1, 7, 35, crc8 [7]] := by
  have h256 : serValue (.vStruct (List.replicate 256 (.vU8 7)))
      = .ok (List.replicate 256 7) := by
    have : ∀ n : Nat, serList (List.replicate n (.vU8 7)) = .ok (List.replicate n 7) := by
      intro n
      induction n with
      | zero => simp [serList]
      | succ k ih =>
        simp [List.replicate_succ, serList, serValue, ih, exceptBind_ok]
    simp only [serValue]
    exact this 256
  have h1 : serValue (.vStruct [.vU8 7]) = .ok [7] := by
    simp [serValue, serList, exceptBind_ok]
  constructor
  · exact (spec_C7_payload_ceiling ucpackDefault _ _ h256).1 (by simp)
  · have := (spec_C7_payload_ceiling ucpackDefault _ _ h1).2 (by simp)
    simpa using this

/-- C8: boolean decoding consumes exactly one byte; byte 0 decodes to
`false`, byte 1 to `true`, and any other byte value fails with `InvalidData`
(no coercion to a truth value). -/
theorem spec_C8_bool_decoding (b : Nat) (rest : List Nat) (hb : b < 256) :
    (b = 0 → deValue .sBool (b :: rest) = .ok (.vBool false, rest)) ∧
    (b = 1 → deValue .sBool (b :: rest) = .ok (.vBool true, rest)) ∧
    (2 ≤ b → deValue .sBool (b :: rest) = .error .InvalidData) := by
  refine ⟨fun h0 => ?_, fun h1 => ?_, fun h2 => ?_⟩
  · subst h0
    simp [deValue, readU8, exceptBind_ok]
  · subst h1
    simp [deValue, readU8, exceptBind_ok]
  · match b, h2 with
    | n + 2, _ =>
      simp [deValue, readU8, exceptBind_ok]

/-- C8 witness: concrete boolean bytes 0, 1 and 2. -/
theorem spec_C8_bool_decoding_witness :
    deValue .sBool [0, 9] = .ok (.vBool false, [9]) ∧
    deValue .sBool [1, 9] = .ok (.vBool true, [9]) ∧
    deValue .sBool [2, 9] = .error .InvalidData :=
  ⟨(spec_C8_bool_decoding 0 [9] (by omega)).1 rfl,
   (spec_C8_bool_decoding 1 [9] (by omega)).2.1 rfl,
   (spec_C8_bool_decoding 2 [9] (by omega)).2.2 (by omega)⟩

theorem deserialize_slice_take (strict : Bool) (p : UcPack) (s : Shape)
    (b : List Nat) (len : Nat) (h1 : b.get? 1 = some len) (h2 : len + 4 ≤ b.length) :
    deserialize_slice strict p s b = deserialize_slice strict p s (b.take (len + 4)) := by
  have hcm : is_complete_message b = some (b.take (len + 4)) := by
    rw [is_complete_message, h1, optionBind_some, if_pos h2]
  have hget : (b.take (len + 4)).get? 1 = some len := by
    rw [List.get?_take (by omega)]
    exact h1
  have hlen2 : (b.take (len + 4)).length = len + 4 := by
    rw [List.length_take]
    omega
  have hcm2 : is_complete_message (b.take (len + 4)) = some (b.take (len + 4)) := by
    rw [is_complete_message, hget, optionBind_some, if_pos (le_of_eq hlen2.symm),
      List.take_of_length_le (le_of_eq hlen2)]
  rw [deserialize_slice, deserialize_slice, hcm, hcm2]

/-- C10: trailing bytes after a complete frame are never read —
`deserialize_slice` on a buffer holding a complete frame returns exactly the
result of `deserialize_slice` on the frame prefix of `buffer[1] + 4` bytes. -/
theorem spec_C10_trailing_bytes (strict : Bool) (p : UcPack) (s : Shape)
    (b : List Nat) (len : Nat) (h1 : b.get? 1 = some len) (h2 : len + 4 ≤ b.length) :
    deserialize_slice strict p s b = deserialize_slice strict p s (b.take (len + 4)) :=
  deserialize_slice_take strict p s b len h1 h2

/-- C10 witness: a frame followed by trailing junk decodes identically to the
bare frame. -/
theorem spec_C10_trailing_bytes_witness :
    deserialize_slice false ucpackDefault .sU8 [65, 1, 7, 35, 131, 99, 98, 97]
      = deserialize_slice false ucpackDefault .sU8
          (([65, 1, 7, 35, 131, 99, 98, 97] : List Nat).take 5) :=
  spec_C10_trailing_bytes false ucpackDefault .sU8 _ 1 rfl (by simp)

/-- C2 counterexample: serializing a unit variant does not succeed — the
serializer's `serialize_unit_variant` rejects it with `NoSupport` carrying the
enum's name, so no one-byte discriminant frame is produced. -/
theorem spec_C2_counterexample :
    serialize_vec ucpackDefault (.vUnitVariant "TestEnum" 0)
      = .error (.NoSupport "TestEnum") := by
  simp [serialize_vec, serValue, exceptBind_error]

/-- C2 amended: `serialize_unit_variant` fails with `NoSupport` (naming the
enum) for every unit variant, while on the deserialization side a unit
variant consumes exactly the one discriminant byte (`unit_variant` reads
nothing further). -/
theorem spec_C2_amended (name : String) (d : Nat) (vars : List VariantShape)
    (rest : List Nat) (hv : variantAt vars d = some .unit) :
    serValue (.vUnitVariant name d) = .error (.NoSupport name) ∧
    deValue (.sEnum name vars) (d :: rest) = .ok (.vUnitVariant name d, rest) := by
  constructor
  · simp [serValue]
  · simp only [deValue, readU8, exceptBind_ok]
    split
    · rename_i heq; rw [hv] at heq; exact absurd heq (by simp)
    · rfl
    · rename_i s heq; rw [hv] at heq; exact absurd heq (by simp)
    · rename_i fs heq; rw [hv] at heq; exact absurd heq (by simp)
    · rename_i fs heq; rw [hv] at heq; exact absurd heq (by simp)

/-- C2 amended witness: the two-variant enum of the test suite — serializing
`Tag1` fails with `NoSupport "TestEnum"`, and decoding discriminant 0 yields
the unit variant consuming one byte. -/
theorem spec_C2_amended_witness :
    serValue (.vUnitVariant "TestEnum" 0) = .error (.NoSupport "TestEnum") ∧
    deValue (.sEnum "TestEnum" [.unit, .newtype .sU16]) [0, 9]
      = .ok (.vUnitVariant "TestEnum" 0, [9]) :=
  spec_C2_amended "TestEnum" 0 [.unit, .newtype .sU16] [9] rfl

/-- `SliceCursor` from `buffer.rs`: a byte slice plus a read/write position. -/
structure SliceCursor where
  index : Nat
  buffer : List Nat
deriving DecidableEq, Repr

/-- `SliceCursor::from_slice`. -/
def SliceCursor.from_slice (bf : List Nat) : SliceCursor :=
  { index := 0, buffer := bf }

/-- `SliceCursor::read_n::<N>`: `buffer.get(index..index + N)` succeeds iff
`index + N ≤ buffer.len()`, in which case those `N` bytes are returned and
`index` advances by `N`; otherwise `Eof` and the cursor is unchanged. -/
def SliceCursor.read_n (c : SliceCursor) (N : Nat) :
    Except UcPackError (List Nat) × SliceCursor :=
  if c.index + N ≤ c.buffer.length then
    (.ok ((c.buffer.drop c.index).take N), { c with index := c.index + N })
  else
    (.error .Eof, c)

/-- `SliceCursor::push_slice`: the remaining room is
`buffer.len() - index`; if the data is larger, `BufferFull` and nothing
changes; otherwise the data is copied at `index` and `index` advances by
`data.len()`. -/
def SliceCursor.push_slice (c : SliceCursor) (data : List Nat) :
    Except UcPackError Unit × SliceCursor :=
  if c.buffer.length - c.index < data.length then
    (.error .BufferFull, c)
  else
    (.ok (),
      { index := c.index + data.length,
        buffer := c.buffer.take c.index ++ data ++ c.buffer.drop (c.index + data.length) })

/-- C9: cursor invariants — under `index ≤ buffer.length`, `read_n` either
returns exactly `N` bytes and advances `index` by exactly `N` (preserving the
invariant and the buffer), or fails with `Eof` leaving the cursor untouched;
`push_slice` either copies the data (buffer length preserved, the copied
region holds `data`, everything outside it unchanged) and advances `index` by
exactly `data.length`, or fails with `BufferFull` leaving the cursor
untouched. -/
theorem spec_C9_cursor_invariants (c : SliceCursor) (N : Nat) (data : List Nat)
    (hwf : c.index ≤ c.buffer.length) :
    ((c.index + N ≤ c.buffer.length →
        ∃ out, c.read_n N = (.ok out, { c with index := c.index + N }) ∧
          out.length = N ∧ c.index + N ≤ c.buffer.length) ∧
      (c.buffer.length < c.index + N → c.read_n N = (.error .Eof, c))) ∧
    ((data.length ≤ c.buffer.length - c.index →
        ∃ c', c.push_slice data = (.ok (), c') ∧
          c'.index = c.index + data.length ∧
          c'.buffer.length = c.buffer.length ∧
          c'.index ≤ c'.buffer.length ∧
          c'.buffer.take c.index = c.buffer.take c.index ∧
          (c'.buffer.drop c.index).take data.length = data ∧
          c'.buffer.drop (c.index + data.length) = c.buffer.drop (c.index + data.length)) ∧
      (c.buffer.length - c.index < data.length →
        c.push_slice data = (.error .BufferFull, c))) := by
  refine ⟨⟨fun hle => ?_, fun hgt => ?_⟩, ⟨fun hle => ?_, fun hgt => ?_⟩⟩
  · refine ⟨(c.buffer.drop c.index).take N, ?_, ?_, hle⟩
    · rw [SliceCursor.read_n, if_pos hle]
    · rw [List.length_take, List.length_drop]
      omega
  · rw [SliceCursor.read_n, if_neg (by omega)]
  · have hA : (c.buffer.take c.index).length = c.index := by
      rw [List.length_take]
      omega
    have hB : (c.buffer.drop (c.index + data.length)).length
        = c.buffer.length - (c.index + data.length) := List.length_drop _ _
    refine ⟨⟨c.index + data.length,
      c.buffer.take c.index ++ data ++ c.buffer.drop (c.index + data.length)⟩,
      ?_, rfl, ?_, ?_, ?_, ?_, ?_⟩
    · rw [SliceCursor.push_slice, if_neg (by omega)]
    · show (c.buffer.take c.index ++ data ++ c.buffer.drop (c.index + data.length)).length
        = c.buffer.length
      rw [List.length_append, List.length_append, hA, hB]
      omega
    · show c.index + data.length
        ≤ (c.buffer.take c.index ++ data ++ c.buffer.drop (c.index + data.length)).length
      rw [List.length_append, List.length_append, hA, hB]
      omega
    · show (c.buffer.take c.index ++ data ++ c.buffer.drop (c.index + data.length)).take c.index
        = c.buffer.take c.index
      rw [List.append_assoc]
      have ht := List.take_left (c.buffer.take c.index)
        (data ++ c.buffer.drop (c.index + data.length))
      rwa [hA] at ht
    · show ((c.buffer.take c.index ++ data ++ c.buffer.drop (c.index + data.length)).drop
        c.index).take data.length = data
      rw [List.append_assoc]
      have hd := List.drop_left (c.buffer.take c.index)
        (data ++ c.buffer.drop (c.index + data.length))
      rw [hA] at hd
      rw [hd]
      exact List.take_left data _
    · show (c.buffer.take c.index ++ data ++ c.buffer.drop (c.index + data.length)).drop
        (c.index + data.length) = c.buffer.drop (c.index + data.length)
      have hAD : (c.buffer.take c.index ++ data).length = c.index + data.length := by
        rw [List.length_append, hA]
      have hd := List.drop_left (c.buffer.take c.index ++ data)
        (c.buffer.drop (c.index + data.length))
      rwa [hAD] at hd
  · rw [SliceCursor.push_slice, if_pos hgt]

/-- C9 witness: a cursor over a 5-byte buffer — the first read succeeds and
advances, a 3-byte write at position 2 succeeds, and an oversized operation
fails leaving the cursor unchanged. -/
theorem spec_C9_cursor_invariants_witness :
    (∃ out, (SliceCursor.from_slice [10, 20, 30, 40, 50]).read_n 2
        = (.ok out, { index := 2, buffer := [10, 20, 30, 40, 50] }) ∧
      out.length = 2 ∧ 0 + 2 ≤ 5) ∧
    ({ index := 2, buffer := [10, 20, 30, 40, 50] } : SliceCursor).push_slice [7, 8, 9, 6]
      = (.error .BufferFull, { index := 2, buffer := [10, 20, 30, 40, 50] }) := by
  constructor
  · exact ((spec_C9_cursor_invariants (SliceCursor.from_slice [10, 20, 30, 40, 50])
      2 [] (by simp [SliceCursor.from_slice])).1.1 (by simp [SliceCursor.from_slice]))
  · exact ((spec_C9_cursor_invariants
      ({ index := 2, buffer := [10, 20, 30, 40, 50] } : SliceCursor)
      0 [7, 8, 9, 6] (by simp)).2.2 (by simp))

theorem deserialize_ok_structure (pk : UcPack) (s : Shape) (f : List Nat) (val : Value)
    (h : deserialize_slice false pk s f = .ok val) :
    ∃ L a payload e c, f.get? 1 = some L ∧ L + 4 ≤ f.length ∧ payload.length = L ∧
      f.take (L + 4) = a :: L :: (payload ++ [e, c]) ∧ crc8 payload = c := by
  cases hg : f.get? 1 with
  | none =>
    rw [deserialize_slice, is_complete_message, hg] at h
    exact absurd h (by simp [Option.bind])
  | some L =>
    by_cases h2 : L + 4 ≤ f.length
    case neg =>
      rw [deserialize_slice, is_complete_message, hg, optionBind_some, if_neg h2] at h
      exact absurd h (by simp)
    case pos =>
    have hlen : (f.take (L + 4)).length = L + 4 := by
      rw [List.length_take]
      omega
    obtain ⟨a, p1, rest, hpkt⟩ : ∃ a p1 rest, f.take (L + 4) = a :: p1 :: rest := by
      cases hpkt : f.take (L + 4) with
      | nil => rw [hpkt] at hlen; simp at hlen
      | cons a t =>
        cases t with
        | nil => rw [hpkt] at hlen; simp at hlen
        | cons p1 rest => exact ⟨a, p1, rest, rfl⟩
    have hp1 : p1 = L := by
      have hq : (f.take (L + 4)).get? 1 = f.get? 1 := List.get?_take (by omega)
      rw [hpkt, hg] at hq
      simpa using hq
    subst hp1
    have hrlen : rest.length = p1 + 2 := by
      rw [hpkt] at hlen
      simpa using hlen
    obtain ⟨e, c, htl⟩ : ∃ e c, rest.drop p1 = [e, c] := by
      have hdl : (rest.drop p1).length = 2 := by
        rw [List.length_drop, hrlen]
        omega
      cases hdrop : rest.drop p1 with
      | nil => rw [hdrop] at hdl; simp at hdl
      | cons e t =>
        cases t with
        | nil => rw [hdrop] at hdl; simp at hdl
        | cons c t2 =>
          cases t2 with
          | nil => exact ⟨e, c, rfl⟩
          | cons x t3 => rw [hdrop] at hdl; simp at hdl
    have hrest : rest = rest.take p1 ++ [e, c] := by
      conv_lhs => rw [← List.take_append_drop p1 rest]
      rw [htl]
    have hplen : (rest.take p1).length = p1 := by
      rw [List.length_take]
      omega
    refine ⟨p1, a, rest.take p1, e, c, rfl, h2, hplen, ?_, ?_⟩
    · rw [hpkt, ← hrest]
    · have hdec : f.take (p1 + 4) = a :: (rest.take p1).length :: (rest.take p1 ++ [e, c]) := by
        rw [hpkt, ← hrest, hplen]
      rw [deserialize_slice_take false pk s f p1 hg h2, hdec, deserialize_frame_eq] at h
      split at h
      · exact absurd h (by simp)
      · rename_i hcrc
        simpa using hcrc

/-- C6: corruption detection — if a frame decodes successfully, then changing
any single payload byte (position `i` with `2 ≤ i < 2 + f[1]`) to any other
byte value makes `deserialize_slice` fail with `WrongCrc`: the stored CRC no
longer matches the recomputed CRC8 of the altered payload. -/
theorem spec_C6_corruption (pk : UcPack) (s : Shape) (f : List Nat) (val : Value)
    (i v : Nat) (hok : deserialize_slice false pk s f = .ok val)
    (hi2 : 2 ≤ i) (hiU : i < 2 + f.getD 1 0)
    (hv : v < 256) (hfi : f.getD i 0 < 256) (hne : v ≠ f.getD i 0) :
    deserialize_slice false pk s (f.set i v) = .error .WrongCrc := by
  obtain ⟨L, a, payload, e, c, hg, h2, hlen, hdec, hcrc⟩ :=
    deserialize_ok_structure pk s f val hok
  have hL : f.getD 1 0 = L := by
    rw [List.getD_eq_getElem?_getD, ← List.get?_eq_getElem?, hg]
    rfl
  rw [hL] at hiU
  obtain ⟨k, rfl⟩ : ∃ k, i = k + 2 := ⟨i - 2, by omega⟩
  have hk : k < payload.length := by omega
  have hpb : payload.getD k 0 = f.getD (k + 2) 0 := by
    have hq : (f.take (L + 4)).getD (k + 2) 0 = f.getD (k + 2) 0 := by
      rw [List.getD_eq_getElem?_getD, List.getD_eq_getElem?_getD,
        List.getElem?_take_of_lt (by omega)]
    rw [hdec] at hq
    rw [← hq]
    simp only [List.getD_cons_succ]
    rw [List.getD_append payload [e, c] 0 k hk]
  have hg2 : (f.set (k + 2) v).get? 1 = some L := by
    rw [List.get?_set_ne v f (by omega)]
    exact hg
  have hlen2 : L + 4 ≤ (f.set (k + 2) v).length := by
    rw [List.length_set]
    exact h2
  rw [deserialize_slice_take false pk s (f.set (k + 2) v) L hg2 hlen2]
  have htake : (f.set (k + 2) v).take (L + 4) = (f.take (L + 4)).set (k + 2) v :=
    List.set_take
  have hframe : (f.take (L + 4)).set (k + 2) v
      = a :: L :: (payload.set k v ++ [e, c]) := by
    rw [hdec]
    simp only [List.set_cons_succ]
    rw [List.set_append_left k v hk]
  have hplen2 : (payload.set k v).length = L := by
    rw [List.length_set]
    exact hlen
  rw [htake, hframe, ← hplen2, deserialize_frame_eq]
  rw [if_pos ?_]
  have hsdec : payload.set k v = payload.take k ++ v :: payload.drop (k + 1) :=
    List.set_eq_take_cons_drop v hk
  have hpdec : payload = payload.take k ++ payload.getD k 0 :: payload.drop (k + 1) := by
    conv_lhs => rw [← List.take_append_drop k payload]
    rw [List.drop_eq_getElem_cons hk, List.getD_eq_getElem payload 0 hk]
  intro hceq
  have hchange := crc8_ne_of_single_change (payload.take k) (payload.drop (k + 1))
    (payload.getD k 0) v (hpb ▸ hfi) hv (by rw [hpb]; exact fun hx => hne hx.symm)
  rw [← hpdec, ← hsdec] at hchange
  rw [hcrc] at hchange
  exact hchange hceq.symm

/-- C6 witness: flipping the single payload byte of a valid one-byte frame
(`u8` value 7) to 8 makes decoding fail with `WrongCrc`. -/
theorem spec_C6_corruption_witness :
    deserialize_slice false ucpackDefault .sU8
        (([65, 1, 7, 35, 131] : List Nat).set 2 8) = .error .WrongCrc := by
  have hok : deserialize_slice false ucpackDefault .sU8 [65, 1, 7, 35, 131]
      = .ok (.vU8 7) := by
    have h1 : hasShape (.vU8 7) .sU8 = true := by simp [hasShape]
    have h2 : serialize_vec ucpackDefault (.vU8 7) = .ok [65, 1, 7, 35, 131] := by
      simp [serialize_vec, serValue, exceptBind_ok]
      exact ⟨rfl, rfl, rfl⟩
    have hrt := ser_de_id (.vU8 7) .sU8 [7] [] h1 (by simp [serValue])
    rw [show ([65, 1, 7, 35, 131] : List Nat) = 65 :: ([7] : List Nat).length ::
      ([7] ++ [35, 131]) from rfl, deserialize_frame_eq]
    rw [if_neg (by decide), show ([7] : List Nat) = [7] ++ [] from rfl, hrt]
  exact spec_C6_corruption ucpackDefault .sU8 [65, 1, 7, 35, 131] (.vU8 7) 2 8 hok
    (by norm_num) (by norm_num) (by norm_num) (by norm_num) (by norm_num)

end UcPackModel
